import Mathlib

/-!
Verification development for the gh-difftool core: a shallow embedding of
the change-set store (`src/change_set.rs`), the patch-reversal branches of
`Change::reverse_apply`, the difftool launcher (`src/git_config.rs`), and the
two-queue diff pipeline of `diff` in `src/main.rs`, together with theorems
about the spec-level properties of these components.

File contents and patch texts are modelled as `List Char` (the char-level view
of Rust UTF-8 strings); file-system effects of `reverse_apply` are modelled as
the pair of contents written to the `src` file (the fetched "new" file) and the
`dest` file (the reconstructed "original"), plus whether the external `patch`
utility is spawned.  The asynchronous scheduler of `diff` is modelled as a
small-step machine driven by an arbitrary schedule of branch choices; the
in-order delivery of `futures::stream::FuturesOrdered` (an external library
contract the source relies on) is reflected by the pending list being consumed
front to back.
-/

/-- One file change of a pull request, from `Change` in `src/change_set.rs`. -/
structure Change where
  filename : String
  previousFilename : Option String
  contentsUrl : String
  patch : Option (List Char)
  status : String
  sha : List Char
deriving DecidableEq, Repr

/-- The fixed submodule marker, `SUBMODULE_PATCH_PREFIX` in
`Change::get_submodule_commit_sha`. -/
def markerStr : List Char := ("@@ -1 +1 @@\n-Subproject commit ").data

/-- Embedding of `str::strip_prefix` for the fixed marker: the remainder of
`p` after `markerStr` when `markerStr` starts `p`, else `none`. -/
def stripMarker (p : List Char) : Option (List Char) :=
  if p.take markerStr.length = markerStr then some (p.drop markerStr.length) else none

/-- Embedding of Rust `str::ends_with`: `t` is a suffix of `s`. -/
def endsWithL (s t : List Char) : Bool :=
  decide (s.drop (s.length - t.length) = t)

/-- Embedding of `sha.split_once('\n').unwrap_or(("", "")).0`: the part
before the first line break when one exists, otherwise the empty string. -/
def beforeNl (s : List Char) : List Char :=
  if '\n' ∈ s then s.takeWhile (fun ch => decide (ch ≠ '\n')) else []

/-- Embedding of `Change::get_submodule_commit_sha`: the patch must start with
the fixed marker and end with the change `sha`; the returned commit id is the
stripped remainder up to the first line break. -/
def Change.getSubmoduleCommitSha (c : Change) (p : List Char) : Option (List Char) :=
  match stripMarker p, endsWithL p c.sha with
  | some rest, true => some (beforeNl rest)
  | _, _ => none

/-- Result of `Change::reverse_apply` on the two staged files.  `written a b`
means the branch finished internally, leaving content `a` in the `src` file
(the fetched post-change file) and content `b` in the `dest` file (the
reconstructed original), without spawning the `patch` utility.
`externalPatch d` means the general branch spawns `patch -R` feeding it `d`
on stdin (the patch text plus the always-appended trailing newline). -/
inductive ReverseResult where
  | written (srcAfter destAfter : List Char)
  | externalPatch (stdinData : List Char)
deriving DecidableEq, Repr

/-- Embedding of `Change::reverse_apply` from `src/change_set.rs`, branch for
branch in source order: the `status == "removed"` swap, the missing-patch
copy, the submodule commit id, and finally the external `patch` spawn. -/
def Change.reverseApply (c : Change) (srcContent : List Char) : ReverseResult :=
  if c.status = "removed" then ReverseResult.written [] srcContent
  else
    match c.patch with
    | none => ReverseResult.written srcContent srcContent
    | some p =>
      match c.getSubmoduleCommitSha p with
      | some sh => ReverseResult.written srcContent sh
      | none => ReverseResult.externalPatch (p ++ ['\n'])

/-- Ordered collection of changes, `ChangeSet` in `src/change_set.rs`. -/
structure ChangeSet where
  changes : List Change
deriving DecidableEq, Repr

/-- Embedding of `Iterator::position`: index of the first element satisfying
`p`, counting from zero. -/
def findPos {α : Type} (p : α → Bool) : List α → Option Nat
  | [] => none
  | x :: xs => if p x then some 0 else (findPos p xs).map (fun i => i + 1)

/-- Error message built by `ChangeSet::file_position`. -/
def noSuchPath (file : String) : String :=
  "No such path '" ++ file ++ "' in the diff."

/-- Embedding of `ChangeSet::file_position`. -/
def ChangeSet.filePosition (cs : ChangeSet) (file : String) : Except String Nat :=
  match findPos (fun c => decide (c.filename = file)) cs.changes with
  | some i => Except.ok i
  | none => Except.error (noSuchPath file)

/-- Embedding of `ChangeSet::filter_files`: retain the changes whose filename
occurs in `files`. -/
def ChangeSet.filterFiles (cs : ChangeSet) (files : List String) : ChangeSet :=
  ⟨cs.changes.filter (fun c => decide (c.filename ∈ files))⟩

/-- Embedding of `ChangeSet::rotate_to`: `Vec::rotate_left` at the found
position, so the match comes first and its predecessors move to the tail. -/
def ChangeSet.rotateTo (cs : ChangeSet) (file : String) : Except String ChangeSet :=
  match cs.filePosition file with
  | Except.ok i => Except.ok ⟨cs.changes.drop i ++ cs.changes.take i⟩
  | Except.error e => Except.error e

/-- Embedding of `ChangeSet::skip_to`: `Vec::split_off` at the found position,
keeping the match and everything after it. -/
def ChangeSet.skipTo (cs : ChangeSet) (file : String) : Except String ChangeSet :=
  match cs.filePosition file with
  | Except.ok i => Except.ok ⟨cs.changes.drop i⟩
  | Except.error e => Except.error e

/-- Embedding of `Difftool::launch` in `src/git_config.rs` after argument
substitution: `spawnRes` is the outcome of `Command::spawn`, `waitRes` the
outcome of `child.wait()` carrying the tool exit code.  Per the source, the
exit code is deliberately discarded and only spawn or wait failures become
errors. -/
def launchViewer (spawnRes : Except String Unit) (waitRes : Except String Int) :
    Except String Unit :=
  match spawnRes with
  | Except.error e => Except.error e
  | Except.ok _ =>
    match waitRes with
    | Except.error e => Except.error e
    | Except.ok _ => Except.ok ()

/-- A staged pair of temporary file paths handed to the difftool, the
`Difftool` value built by `Diff::difftool` in `src/diff.rs`. -/
structure StagedPair where
  original : String
  new : String
deriving DecidableEq, Repr

deriving instance DecidableEq for Except

/-- A successfully prepared change: its staged pair together with the outcome
its eventual `Difftool::launch` call will have (ok, or a spawn/wait error). -/
abbrev PrepItem := StagedPair × Except String Unit

/-- Outcome of one preparation task `diff.difftool(change)` (fetch, reverse,
stage): a prepared item, or the preparation error. -/
abbrev PrepRes := Except String PrepItem

/-- Observable events of the `diff` scheduling loop in `src/main.rs`. -/
inductive PipeEvent where
  | pushed (p : StagedPair)
  | launched (p : StagedPair)
  | viewerExited (p : StagedPair)
  | viewerErrorReported (msg : String)
deriving DecidableEq, Repr

/-- State of the `diff` loop: `pending` are the preparation results the
`FuturesOrdered` stream has not yielded yet (consumed front to back, which is
the ordered-stream contract the source relies on); `diffs` is the `VecDeque`
of prepared items; `done` and `viewing` describe the single pinned
`diff_future` (`viewing = none` models `launch_difftool(None)`). -/
structure PipeState where
  pending : List PrepRes
  diffs : List PrepItem
  done : Bool
  viewing : Option PrepItem
deriving DecidableEq, Repr

/-- Initial state of the loop: nothing pushed, `done` initialized to `true`
and the consumed `launch_difftool(None)` future pinned. -/
def initPipe (rs : List PrepRes) : PipeState :=
  ⟨rs, [], true, none⟩

/-- Which enabled `tokio::select!` branch fires next. -/
inductive PipeChoice where
  | stream
  | view
deriving DecidableEq, Repr

/-- Final result of the `diff` function. -/
inductive PipeResult where
  | completed
  | aborted (e : String)
  | outOfSchedule
deriving DecidableEq, Repr

/-- Events produced when the pinned `diff_future` resolves: the active viewer
(if any) exits, and its launch error (if any) is printed. -/
def viewEvents (v : Option PrepItem) : List PipeEvent :=
  match v with
  | none => []
  | some pv =>
    PipeEvent.viewerExited pv.1 ::
      (match pv.2 with
       | Except.ok _ => []
       | Except.error e => [PipeEvent.viewerErrorReported e])

/-- Outcome of firing one `select!` branch. -/
inductive StepOut where
  | next (s : PipeState) (evs : List PipeEvent)
  | halt (evs : List PipeEvent) (r : PipeResult)
deriving Repr

/-- One iteration of the `loop` in `diff` (`src/main.rs`).  The `else => break`
arm fires when the stream is exhausted and `done` holds; the stream arm either
pushes a prepared item (`diffs.push_back(new_diff?)`, resetting `done`) or
propagates a preparation error, aborting the whole function; the viewer arm
(enabled only when `done` is false) resolves the pinned future, prints a
launch error if there was one, and either launches the head of the queue or
parks the loop with `done := true`. -/
def pipeStep (s : PipeState) (c : PipeChoice) : StepOut :=
  if s.pending = [] ∧ s.done = true then StepOut.halt [] PipeResult.completed
  else
    match c with
    | PipeChoice.stream =>
      match s.pending with
      | [] => StepOut.next s []
      | Except.error e :: _ => StepOut.halt [] (PipeResult.aborted e)
      | Except.ok pv :: rest =>
        StepOut.next
          { s with pending := rest, diffs := s.diffs ++ [pv], done := false }
          [PipeEvent.pushed pv.1]
    | PipeChoice.view =>
      if s.done then StepOut.next s []
      else
        match s.diffs with
        | q :: qs =>
          StepOut.next { s with viewing := some q, diffs := qs }
            (viewEvents s.viewing ++ [PipeEvent.launched q.1])
        | [] =>
          StepOut.next { s with viewing := none, done := true }
            (viewEvents s.viewing)

/-- Run of the `diff` loop under a schedule of branch choices.  An exhausted
schedule before the loop ends yields `outOfSchedule`. -/
def runPipe (s : PipeState) : List PipeChoice → List PipeEvent × PipeResult
  | [] =>
    if s.pending = [] ∧ s.done = true then ([], PipeResult.completed)
    else ([], PipeResult.outOfSchedule)
  | c :: cs =>
    match pipeStep s c with
    | StepOut.halt evs r => (evs, r)
    | StepOut.next s₂ evs =>
      let t := runPipe s₂ cs
      (evs ++ t.1, t.2)

/-- Pairs of the `launched` events of a trace, in order. -/
def launchesOf (t : List PipeEvent) : List StagedPair :=
  t.filterMap fun e =>
    match e with
    | PipeEvent.launched p => some p
    | _ => none

/-- Prepared items the ordered stream can ever deliver: the leading run of
successful results, stopping at the first preparation error. -/
def okLead : List PrepRes → List PrepItem
  | Except.ok pv :: rest => pv :: okLead rest
  | _ => []

/-- The pool of items a state can still hand to the viewer, in order. -/
def poolOf (s : PipeState) : List StagedPair :=
  s.diffs.map (fun pv => pv.1) ++ (okLead s.pending).map (fun pv => pv.1)

/-- `a` begins `b`: delivery in original order, possibly truncated. -/
def ListLead {α : Type} (a b : List α) : Prop := ∃ t, a ++ t = b

/-- Checks that the `launched` and `viewerExited` events of a trace strictly
alternate, starting from the given active viewer: at most one difftool
instance at a time, and the next one only after the previous exited. -/
def viewerSeq : Option StagedPair → List PipeEvent → Bool
  | _, [] => true
  | v, PipeEvent.pushed _ :: t => viewerSeq v t
  | v, PipeEvent.viewerErrorReported _ :: t => viewerSeq v t
  | none, PipeEvent.launched p :: t => viewerSeq (some p) t
  | some p, PipeEvent.viewerExited q :: t =>
    if p = q then viewerSeq none t else false
  | _, _ => false

/-- The active viewer of a state, as the staged pair being shown. -/
def viewTag (s : PipeState) : Option StagedPair :=
  s.viewing.map (fun pv => pv.1)

/-- Replace the viewer-launch outcome of a prepared item by success. -/
def eraseItem (pv : PrepItem) : PrepItem := (pv.1, Except.ok ())

/-- Replace the viewer-launch outcome of a preparation result by success,
keeping preparation errors. -/
def eraseV : PrepRes → PrepRes
  | Except.ok pv => Except.ok (eraseItem pv)
  | Except.error e => Except.error e

/-- Forget all viewer-launch outcomes of a state: used to show the control
flow of the loop never depends on a viewer exit status. -/
def eraseS (s : PipeState) : PipeState :=
  ⟨s.pending.map eraseV, s.diffs.map eraseItem, s.done, s.viewing.map eraseItem⟩

/-- The already-typed command-line selections consumed by `main`
(`src/main.rs`): explicit file subset, `--skip-to`, `--rotate-to`,
`--name-only`. -/
structure CliOpts where
  files : List String
  skipArg : Option String
  rotateArg : Option String
  nameOnly : Bool

/-- What a run of `main` produces after the pre-conditions pass: the
name-only listing, or the events and result of the diff pipeline. -/
inductive MainOutcome where
  | nameOnlyList (names : List String)
  | ranPipeline (events : List PipeEvent) (result : PipeResult)
deriving Repr

/-- Embedding of the `--skip-to` handling in `main` (`src/main.rs` lines
81-83): `change_set.skip_to(filename)?` before any pipeline work. -/
def applySkipArg (cs : ChangeSet) (arg : Option String) : Except String ChangeSet :=
  match arg with
  | none => Except.ok cs
  | some f => cs.skipTo f

/-- Modelled from the spec: the `--rotate-to` command-line wiring is exercised
by `tests/rotate_to.rs` but is not present in `src/main.rs`; per spec sections
6 and 7 it is an ordering pre-condition on the change set, checked and applied
before any preparation or viewer work, exactly like `--skip-to`. -/
def applyRotateArg (cs : ChangeSet) (arg : Option String) : Except String ChangeSet :=
  match arg with
  | none => Except.ok cs
  | some f => cs.rotateTo f

/-- Embedding of `main` after the change set is fetched: filter an explicit
file subset, apply the ordering pre-conditions (failures abort the run before
the pipeline), print names in name-only mode, otherwise run the diff
pipeline.  `prep` gives each change its preparation outcome and `sched` the
scheduling of the loop. -/
def mainFlow (cs : ChangeSet) (opts : CliOpts) (prep : Change → PrepRes)
    (sched : List PipeChoice) : Except String MainOutcome :=
  let cs₁ := if opts.files = [] then cs else cs.filterFiles opts.files
  match applySkipArg cs₁ opts.skipArg with
  | Except.error e => Except.error e
  | Except.ok cs₂ =>
    match applyRotateArg cs₂ opts.rotateArg with
    | Except.error e => Except.error e
    | Except.ok cs₃ =>
      if opts.nameOnly then
        Except.ok (MainOutcome.nameOnlyList (cs₃.changes.map (fun c => c.filename)))
      else
        let t := runPipe (initPipe (cs₃.changes.map prep)) sched
        Except.ok (MainOutcome.ranPipeline t.1 t.2)

/-- Concrete staged pair used in witnesses. -/
def pairA : StagedPair := ⟨"base_a.txt", "a.txt"⟩

/-- Concrete staged pair used in witnesses. -/
def pairB : StagedPair := ⟨"base_b.txt", "b.txt"⟩

/-- Concrete sample change used in witnesses. -/
def chA : Change := ⟨"Cargo.toml", none, "u1", some ("p1").data, "modified", ("s1").data⟩

/-- Concrete sample change used in witnesses. -/
def chB : Change := ⟨"src/lib.rs", none, "u2", some ("p2").data, "modified", ("s2").data⟩

/-- Concrete sample change used in witnesses. -/
def chC : Change := ⟨"README.md", none, "u3", some ("p3").data, "modified", ("s3").data⟩

/-- Concrete sample change set used in witnesses. -/
def sampleSet : ChangeSet := ⟨[chA, chB, chC]⟩

/-- A removed change that still carries a patch. -/
def removedWithPatch : Change :=
  ⟨"gone.txt", none, "u", some ("@@ -1,3 +0,0 @@\n-line one").data, "removed", ("s4").data⟩

/-- A removed change without a patch. -/
def removedNoPatch : Change := ⟨"gone2.txt", none, "u", none, "removed", ("s5").data⟩

/-- A submodule pointer change: marker-shaped patch, trailing token equal to
the change sha, mirroring the `submodule` unit test of `src/change_set.rs`. -/
def subChange : Change :=
  ⟨"a/submodule", none, "idk",
    some (markerStr ++ ("236682e9\n Subproject commit 7c8ba583").data),
    "modified", ("7c8ba583").data⟩

/-- A marker-shaped patch with no line break after the marker. -/
def subChangeNoNl : Change :=
  ⟨"a/submodule", none, "idk", some (markerStr ++ ("7c8ba583").data),
    "modified", ("7c8ba583").data⟩

/-- A change whose status is `removed` while its patch also has the submodule
marker shape with trailing token equal to the sha. -/
def removedSubChange : Change :=
  ⟨"a/submodule", none, "u",
    some (markerStr ++ ("236682e9\n Subproject commit 7c8ba583").data),
    "removed", ("7c8ba583").data⟩

/-- A `removed` change whose marker-shaped patch has no line break after the
marker and ends with the change sha. -/
def removedSubChangeNoNl : Change :=
  ⟨"a/submodule", none, "u", some (markerStr ++ ("7c8ba583").data),
    "removed", ("7c8ba583").data⟩

/-- Preparation that succeeds for every change, staging it under its own
name, with a successful viewer launch. -/
def prepOkFn (c : Change) : PrepItem :=
  (⟨"base_" ++ c.filename, c.filename⟩, Except.ok ())

theorem listLead_nil {α : Type} (b : List α) : ListLead [] b := ⟨b, rfl⟩

theorem listLead_cons {α : Type} (x : α) {a b : List α} :
    ListLead a b → ListLead (x :: a) (x :: b) := by
  rintro ⟨t, rfl⟩
  exact ⟨t, rfl⟩

theorem takeLenAppend {α : Type} (l₁ l₂ : List α) : (l₁ ++ l₂).take l₁.length = l₁ := by
  induction l₁ with
  | nil => simp
  | cons x xs ih => simp [ih]

theorem dropLenAppend {α : Type} (l₁ l₂ : List α) : (l₁ ++ l₂).drop l₁.length = l₂ := by
  induction l₁ with
  | nil => simp
  | cons x xs ih => simp [ih]

theorem memTakeWhile {α : Type} (p : α → Bool) (a : α) :
    ∀ l : List α, a ∈ l.takeWhile p → p a = true := by
  intro l
  induction l with
  | nil => simp [List.takeWhile]
  | cons x xs ih =>
    simp only [List.takeWhile]
    cases hpx : p x with
    | false => simp
    | true =>
      intro hmem
      rcases List.mem_cons.mp hmem with h | h
      · exact h ▸ hpx
      · exact ih h

theorem findPos_none_iff {α : Type} (p : α → Bool) :
    ∀ l : List α, findPos p l = none ↔ ∀ x ∈ l, p x = false := by
  intro l
  induction l with
  | nil => simp [findPos]
  | cons x xs ih =>
    cases hpx : p x with
    | true => simp [findPos, hpx]
    | false => simp [findPos, hpx, Option.map_eq_none', ih]

theorem findPos_some_take {α : Type} (p : α → Bool) :
    ∀ (l : List α) (i : Nat), findPos p l = some i → ∀ x ∈ l.take i, p x = false := by
  intro l
  induction l with
  | nil => intro i h; simp [findPos] at h
  | cons y ys ih =>
    intro i h
    cases hpy : p y with
    | true =>
      simp [findPos, hpy] at h
      subst h
      simp
    | false =>
      simp only [findPos, hpy, if_neg Bool.false_ne_true] at h
      rcases Option.map_eq_some'.mp h with ⟨j, hj, hij⟩
      subst hij
      intro x hx
      simp only [List.take_succ_cons] at hx
      rcases List.mem_cons.mp hx with h' | h'
      · exact h' ▸ hpy
      · exact ih j hj x h'

theorem findPos_some_drop {α : Type} (p : α → Bool) :
    ∀ (l : List α) (i : Nat), findPos p l = some i →
      ∃ x xs, l.drop i = x :: xs ∧ p x = true := by
  intro l
  induction l with
  | nil => intro i h; simp [findPos] at h
  | cons y ys ih =>
    intro i h
    cases hpy : p y with
    | true =>
      simp [findPos, hpy] at h
      subst h
      exact ⟨y, ys, rfl, hpy⟩
    | false =>
      simp only [findPos, hpy, if_neg Bool.false_ne_true] at h
      rcases Option.map_eq_some'.mp h with ⟨j, hj, hij⟩
      subst hij
      simpa using ih j hj

theorem findPos_isSome_of_mem {α : Type} (p : α → Bool) {l : List α} {x : α}
    (hx : x ∈ l) (hpx : p x = true) : ∃ i, findPos p l = some i := by
  rcases h : findPos p l with _ | i
  · exact absurd ((findPos_none_iff p l).mp h x hx) (by simp [hpx])
  · exact ⟨i, rfl⟩

theorem findPos_cons_of_true {α : Type} (p : α → Bool) (x : α) (xs : List α)
    (hpx : p x = true) : findPos p (x :: xs) = some 0 := by
  simp [findPos, hpx]

theorem findPos_none_of_absent (cs : ChangeSet) (file : String)
    (habs : file ∉ cs.changes.map (fun c => c.filename)) :
    findPos (fun c => decide (c.filename = file)) cs.changes = none := by
  rw [findPos_none_iff]
  intro x hx
  simp only [decide_eq_false_iff_not]
  intro heq
  exact habs (List.mem_map.mpr ⟨x, hx, heq⟩)

theorem filePosition_error_iff (cs : ChangeSet) (file : String) :
    cs.filePosition file = Except.error (noSuchPath file) ↔
      file ∉ cs.changes.map (fun c => c.filename) := by
  unfold ChangeSet.filePosition
  rcases h : findPos (fun c => decide (c.filename = file)) cs.changes with _ | i
  · simp only [h]
    constructor
    · intro _ hmem
      rcases List.mem_map.mp hmem with ⟨c, hc, hcf⟩
      have hcf₂ : c.filename = file := hcf
      have hfalse := (findPos_none_iff _ _).mp h c hc
      simp [hcf₂] at hfalse
    · intro _
      trivial
  · simp only [h]
    constructor
    · intro hcontra
      cases hcontra
    · intro habs
      obtain ⟨x, xs, hdrop, hpx⟩ := findPos_some_drop _ _ _ h
      exfalso
      apply habs
      have hxmem : x ∈ cs.changes := List.drop_subset i cs.changes (by rw [hdrop]; simp)
      exact List.mem_map.mpr ⟨x, hxmem, by simpa using hpx⟩

theorem skipTo_eq_of_pos (cs : ChangeSet) (file : String) (i : Nat)
    (h : findPos (fun c => decide (c.filename = file)) cs.changes = some i) :
    cs.skipTo file = Except.ok ⟨cs.changes.drop i⟩ := by
  simp [ChangeSet.skipTo, ChangeSet.filePosition, h]

theorem rotateTo_eq_of_pos (cs : ChangeSet) (file : String) (i : Nat)
    (h : findPos (fun c => decide (c.filename = file)) cs.changes = some i) :
    cs.rotateTo file = Except.ok ⟨cs.changes.drop i ++ cs.changes.take i⟩ := by
  simp [ChangeSet.rotateTo, ChangeSet.filePosition, h]

theorem skipTo_error_of_absent (cs : ChangeSet) (file : String)
    (habs : file ∉ cs.changes.map (fun c => c.filename)) :
    cs.skipTo file = Except.error (noSuchPath file) := by
  simp [ChangeSet.skipTo, ChangeSet.filePosition, findPos_none_of_absent cs file habs]

theorem rotateTo_error_of_absent (cs : ChangeSet) (file : String)
    (habs : file ∉ cs.changes.map (fun c => c.filename)) :
    cs.rotateTo file = Except.error (noSuchPath file) := by
  simp [ChangeSet.rotateTo, ChangeSet.filePosition, findPos_none_of_absent cs file habs]

/-- Claim C5: for every ChangeSet `C` and list of names `F`, `filter_files`
keeps exactly the records whose filename is a member of `F`, in the original
relative order (sublist), and names of `F` matching no record are silently
ignored (filtering by `F` equals filtering by `F` restricted to the names
actually present); the operation is total, never an error. -/
theorem claim5_filter (cs : ChangeSet) (files : List String) :
    (∀ c, c ∈ (cs.filterFiles files).changes ↔ c ∈ cs.changes ∧ c.filename ∈ files)
    ∧ (cs.filterFiles files).changes.Sublist cs.changes
    ∧ cs.filterFiles files =
        cs.filterFiles
          (files.filter (fun f => decide (f ∈ cs.changes.map (fun c => c.filename)))) := by
  refine ⟨?_, ?_, ?_⟩
  · intro c
    simp [ChangeSet.filterFiles, List.mem_filter]
  · exact List.filter_sublist cs.changes
  · unfold ChangeSet.filterFiles
    congr 1
    apply List.filter_congr
    intro c hc
    simp only [decide_eq_decide]
    constructor
    · intro hcf
      exact List.mem_filter.mpr
        ⟨hcf, by simp only [decide_eq_true_eq]; exact List.mem_map.mpr ⟨c, hc, rfl⟩⟩
    · intro h
      exact (List.mem_filter.mp h).1

/-- Claim C6: for every ChangeSet containing a record named `file`,
`rotate_to` succeeds; its result, concatenated with itself, contains the
original sequence (explicit infix decomposition); the result starts with the
record named `file`; and rotating to an already-first record is a no-op. -/
theorem claim6_rotate (cs : ChangeSet) (file : String)
    (hmem : file ∈ cs.changes.map (fun c => c.filename)) :
    ∃ R, cs.rotateTo file = Except.ok R
      ∧ (∃ pre suf, pre ++ cs.changes ++ suf = R.changes ++ R.changes)
      ∧ (∃ c tl, R.changes = c :: tl ∧ c.filename = file)
      ∧ (∀ c₀ tl₀, cs.changes = c₀ :: tl₀ → c₀.filename = file → R = cs) := by
  obtain ⟨c, hc, hcf⟩ := List.mem_map.mp hmem
  have hcf₂ : c.filename = file := hcf
  obtain ⟨i, hi⟩ := findPos_isSome_of_mem (fun c => decide (c.filename = file)) hc (by simp [hcf₂])
  obtain ⟨x, xs, hdrop, hpx⟩ := findPos_some_drop _ _ _ hi
  refine ⟨⟨cs.changes.drop i ++ cs.changes.take i⟩, rotateTo_eq_of_pos cs file i hi, ?_, ?_, ?_⟩
  · refine ⟨cs.changes.drop i, cs.changes.take i, ?_⟩
    have hgen : ∀ a b : List Change, b ++ (a ++ b) ++ a = (b ++ a) ++ (b ++ a) := by
      intro a b
      simp [List.append_assoc]
    have h2 := hgen (cs.changes.take i) (cs.changes.drop i)
    rw [List.take_append_drop] at h2
    exact h2
  · exact ⟨x, xs ++ cs.changes.take i, by rw [hdrop]; simp, by simpa using hpx⟩
  · intro c₀ tl₀ hcs hf
    have h0 : findPos (fun c => decide (c.filename = file)) cs.changes = some 0 := by
      rw [hcs]
      exact findPos_cons_of_true _ _ _ (by simp [hf])
    have hi0 : i = 0 := by
      rw [hi] at h0
      exact Option.some.inj h0
    subst hi0
    cases cs
    simp

/-- Claim C7: for every ChangeSet containing a record named `file`, `skip_to`
succeeds, is idempotent once at its target, drops exactly the records
strictly before the first match, and keeps the match and everything after it
in order. -/
theorem claim7_skip (cs : ChangeSet) (file : String)
    (hmem : file ∈ cs.changes.map (fun c => c.filename)) :
    ∃ R, cs.skipTo file = Except.ok R
      ∧ R.skipTo file = Except.ok R
      ∧ (∃ pre, cs.changes = pre ++ R.changes ∧ ∀ c ∈ pre, c.filename ≠ file)
      ∧ (∃ c tl, R.changes = c :: tl ∧ c.filename = file) := by
  obtain ⟨c, hc, hcf⟩ := List.mem_map.mp hmem
  have hcf₂ : c.filename = file := hcf
  obtain ⟨i, hi⟩ := findPos_isSome_of_mem (fun c => decide (c.filename = file)) hc (by simp [hcf₂])
  obtain ⟨x, xs, hdrop, hpx⟩ := findPos_some_drop _ _ _ hi
  refine ⟨⟨cs.changes.drop i⟩, skipTo_eq_of_pos cs file i hi, ?_, ?_, ?_⟩
  · have h0 : findPos (fun c => decide (c.filename = file)) (cs.changes.drop i) = some 0 := by
      rw [hdrop]
      exact findPos_cons_of_true _ _ _ hpx
    have := skipTo_eq_of_pos ⟨cs.changes.drop i⟩ file 0 h0
    simpa using this
  · refine ⟨cs.changes.take i, (List.take_append_drop i cs.changes).symm, ?_⟩
    intro c' hc'
    have hfalse := findPos_some_take _ _ _ hi c' hc'
    simpa using hfalse
  · exact ⟨x, xs, hdrop, by simpa using hpx⟩

/-- Claim C8: `skip_to` and `rotate_to` fail, carrying the offending filename
in the error, exactly when the name is absent from the change set; and in the
program this check is a pre-condition: with an absent `--skip-to` (or
`--rotate-to`) name, `main` stops with that error before any preparation or
viewer work (the run outcome is the bare error, no pipeline events, no
name-only output). -/
theorem claim8_notfound (cs : ChangeSet) (file : String) :
    (cs.skipTo file = Except.error (noSuchPath file) ↔
      file ∉ cs.changes.map (fun c => c.filename))
    ∧ (cs.rotateTo file = Except.error (noSuchPath file) ↔
      file ∉ cs.changes.map (fun c => c.filename))
    ∧ (∀ (nameOnly : Bool) (prep : Change → PrepRes) (sched : List PipeChoice),
        file ∉ cs.changes.map (fun c => c.filename) →
        mainFlow cs ⟨[], some file, none, nameOnly⟩ prep sched =
          Except.error (noSuchPath file))
    ∧ (∀ (nameOnly : Bool) (prep : Change → PrepRes) (sched : List PipeChoice),
        file ∉ cs.changes.map (fun c => c.filename) →
        mainFlow cs ⟨[], none, some file, nameOnly⟩ prep sched =
          Except.error (noSuchPath file)) := by
  have hskip : ∀ cs₀ : ChangeSet, cs₀.skipTo file = Except.error (noSuchPath file) ↔
      file ∉ cs₀.changes.map (fun c => c.filename) := by
    intro cs₀
    constructor
    · intro herr habsent
      unfold ChangeSet.skipTo at herr
      rcases hp : cs₀.filePosition file with e | i
      · rw [hp] at herr
        exact (filePosition_error_iff cs₀ file).mp
          (by cases herr; exact hp) habsent
      · rw [hp] at herr
        cases herr
    · intro habs
      exact skipTo_error_of_absent cs₀ file habs
  have hrot : ∀ cs₀ : ChangeSet, cs₀.rotateTo file = Except.error (noSuchPath file) ↔
      file ∉ cs₀.changes.map (fun c => c.filename) := by
    intro cs₀
    constructor
    · intro herr habsent
      unfold ChangeSet.rotateTo at herr
      rcases hp : cs₀.filePosition file with e | i
      · rw [hp] at herr
        exact (filePosition_error_iff cs₀ file).mp
          (by cases herr; exact hp) habsent
      · rw [hp] at herr
        cases herr
    · intro habs
      exact rotateTo_error_of_absent cs₀ file habs
  refine ⟨hskip cs, hrot cs, ?_, ?_⟩
  · intro nameOnly prep sched habs
    simp [mainFlow, applySkipArg, skipTo_error_of_absent cs file habs]
  · intro nameOnly prep sched habs
    simp [mainFlow, applySkipArg, applyRotateArg, rotateTo_error_of_absent cs file habs]

theorem stripMarker_append (rest : List Char) :
    stripMarker (markerStr ++ rest) = some rest := by
  unfold stripMarker
  rw [takeLenAppend, dropLenAppend]
  simp

/-- Claim C4: for every change with status `removed`, with or without a patch,
`reverse_apply` succeeds internally, the original file receives exactly the
fetched post-change content, and the new file is emptied. -/
theorem claim4_removed_reverse (c : Change) (src : List Char)
    (hst : c.status = "removed") :
    c.reverseApply src = ReverseResult.written [] src := by
  simp [Change.reverseApply, hst]

/-- Witness for C4 at two concrete removed changes, one carrying a patch and
one without. -/
theorem claim4_witness :
    removedWithPatch.reverseApply ("line one").data =
      ReverseResult.written [] ("line one").data
    ∧ removedNoPatch.reverseApply ("abc").data = ReverseResult.written [] ("abc").data :=
  ⟨claim4_removed_reverse removedWithPatch _ rfl,
    claim4_removed_reverse removedNoPatch _ rfl⟩

/-- Counterexample to C3 as stated: a change whose patch has the submodule
marker shape and trailing token equal to its sha, but whose status is
`removed`.  The removed branch of `reverse_apply` takes precedence, so the
original receives the fetched content, not the extracted token. -/
theorem claim3_counterexample :
    removedSubChange.patch =
      some (markerStr ++ ("236682e9\n Subproject commit 7c8ba583").data)
    ∧ endsWithL (markerStr ++ ("236682e9\n Subproject commit 7c8ba583").data)
        removedSubChange.sha = true
    ∧ removedSubChange.reverseApply ("fetched content").data =
        ReverseResult.written [] ("fetched content").data
    ∧ removedSubChange.reverseApply ("fetched content").data ≠
        ReverseResult.written ("fetched content").data ("236682e9").data := by
  refine ⟨rfl, by decide, rfl, by decide⟩

/-- Claim C3 (amended with the precedence of the removed branch): for every
change that does not have status `removed`, whose patch starts with the fixed
submodule marker and ends with the change sha, and that has a line break
after the marker, `reverse_apply` writes to the original exactly the
substring after the marker up to (not including) the next line break, with no
line terminator in it, and never reaches the external `patch` spawn. -/
theorem claim3_submodule_reverse (c : Change) (rest src : List Char)
    (hpatch : c.patch = some (markerStr ++ rest))
    (hend : endsWithL (markerStr ++ rest) c.sha = true)
    (hnl : '\n' ∈ rest)
    (hst : c.status ≠ "removed") :
    c.reverseApply src =
      ReverseResult.written src (rest.takeWhile (fun ch => decide (ch ≠ '\n')))
    ∧ '\n' ∉ rest.takeWhile (fun ch => decide (ch ≠ '\n')) := by
  constructor
  · simp [Change.reverseApply, hst, hpatch, Change.getSubmoduleCommitSha,
      stripMarker_append, hend, beforeNl, hnl]
  · intro hmem
    have hdecide := memTakeWhile _ _ _ hmem
    simp at hdecide

/-- Witness for C3 at the concrete submodule change of the source unit test:
the token before the line break is the prior commit id. -/
theorem claim3_witness :
    subChange.patch =
      some (markerStr ++ ("236682e9\n Subproject commit 7c8ba583").data)
    ∧ endsWithL (markerStr ++ ("236682e9\n Subproject commit 7c8ba583").data)
        subChange.sha = true
    ∧ '\n' ∈ ("236682e9\n Subproject commit 7c8ba583").data
    ∧ subChange.status ≠ "removed"
    ∧ subChange.reverseApply [] = ReverseResult.written []
        (("236682e9\n Subproject commit 7c8ba583").data.takeWhile
          (fun ch => decide (ch ≠ '\n')))
    ∧ (("236682e9\n Subproject commit 7c8ba583").data.takeWhile
        (fun ch => decide (ch ≠ '\n'))) = ("236682e9").data := by
  refine ⟨rfl, by decide, by decide, by decide, ?_, by decide⟩
  exact (claim3_submodule_reverse subChange _ [] rfl (by decide) (by decide)
    (by decide)).1

/-- Counterexample to C10 as stated: with status `removed` the removed branch
takes precedence, so a marker-shaped patch without a line break does not lead
to an empty original; the original receives the fetched content. -/
theorem claim10_counterexample :
    removedSubChangeNoNl.patch = some (markerStr ++ ("7c8ba583").data)
    ∧ endsWithL (markerStr ++ ("7c8ba583").data) removedSubChangeNoNl.sha = true
    ∧ '\n' ∉ ("7c8ba583").data
    ∧ removedSubChangeNoNl.reverseApply ("x").data =
        ReverseResult.written [] ("x").data
    ∧ removedSubChangeNoNl.reverseApply ("x").data ≠
        ReverseResult.written ("x").data [] := by
  refine ⟨rfl, by decide, by decide, rfl, by decide⟩

/-- Claim C10 (amended with the precedence of the removed branch): for every
change that does not have status `removed`, whose patch starts with the fixed
marker and ends with the change sha but has no line break after the marker,
`reverse_apply` writes an empty original (the extracted token is the empty
string, not the remainder of the patch text). -/
theorem claim10_no_linebreak (c : Change) (rest src : List Char)
    (hpatch : c.patch = some (markerStr ++ rest))
    (hend : endsWithL (markerStr ++ rest) c.sha = true)
    (hnl : '\n' ∉ rest)
    (hst : c.status ≠ "removed") :
    c.reverseApply src = ReverseResult.written src [] := by
  simp [Change.reverseApply, hst, hpatch, Change.getSubmoduleCommitSha,
    stripMarker_append, hend, beforeNl, hnl]

/-- Witness for C10: a marker patch that ends directly with the sha token. -/
theorem claim10_witness :
    subChangeNoNl.patch = some (markerStr ++ ("7c8ba583").data)
    ∧ endsWithL (markerStr ++ ("7c8ba583").data) subChangeNoNl.sha = true
    ∧ '\n' ∉ ("7c8ba583").data
    ∧ subChangeNoNl.status ≠ "removed"
    ∧ subChangeNoNl.reverseApply ("x").data = ReverseResult.written ("x").data [] :=
  ⟨rfl, by decide, by decide, by decide,
    claim10_no_linebreak subChangeNoNl _ _ rfl (by decide) (by decide) (by decide)⟩

/-- Witness for C5 at the concrete scenario of the spec: filtering a 3-file
set by a present and an absent name keeps exactly the present one. -/
theorem claim5_witness :
    (chA ∈ (sampleSet.filterFiles ["Cargo.toml", "fake/file"]).changes)
    ∧ (sampleSet.filterFiles ["Cargo.toml", "fake/file"]).changes.Sublist
        sampleSet.changes
    ∧ (sampleSet.filterFiles ["Cargo.toml", "fake/file"]).changes = [chA] :=
  ⟨((claim5_filter sampleSet ["Cargo.toml", "fake/file"]).1 chA).mpr
      ⟨by decide, by decide⟩,
    (claim5_filter sampleSet ["Cargo.toml", "fake/file"]).2.1,
    by decide⟩

/-- Witness for C6 at the middle record of the sample set. -/
theorem claim6_witness :
    ("src/lib.rs" ∈ sampleSet.changes.map (fun c => c.filename))
    ∧ ∃ R, sampleSet.rotateTo "src/lib.rs" = Except.ok R
      ∧ (∃ pre suf, pre ++ sampleSet.changes ++ suf = R.changes ++ R.changes)
      ∧ (∃ c tl, R.changes = c :: tl ∧ c.filename = "src/lib.rs")
      ∧ (∀ c₀ tl₀, sampleSet.changes = c₀ :: tl₀ → c₀.filename = "src/lib.rs" →
          R = sampleSet) :=
  ⟨by decide, claim6_rotate sampleSet "src/lib.rs" (by decide)⟩

/-- Witness for C7 at the middle record of the sample set. -/
theorem claim7_witness :
    ("src/lib.rs" ∈ sampleSet.changes.map (fun c => c.filename))
    ∧ ∃ R, sampleSet.skipTo "src/lib.rs" = Except.ok R
      ∧ R.skipTo "src/lib.rs" = Except.ok R
      ∧ (∃ pre, sampleSet.changes = pre ++ R.changes ∧ ∀ c ∈ pre, c.filename ≠ "src/lib.rs")
      ∧ (∃ c tl, R.changes = c :: tl ∧ c.filename = "src/lib.rs") :=
  ⟨by decide, claim7_skip sampleSet "src/lib.rs" (by decide)⟩

/-- Witness for C8 at a concrete absent name: both operations fail with the
message carrying the name, and the modelled `main` aborts before the
pipeline. -/
theorem claim8_witness :
    ("missing.txt" ∉ sampleSet.changes.map (fun c => c.filename))
    ∧ sampleSet.skipTo "missing.txt" = Except.error (noSuchPath "missing.txt")
    ∧ sampleSet.rotateTo "missing.txt" = Except.error (noSuchPath "missing.txt")
    ∧ mainFlow sampleSet ⟨[], some "missing.txt", none, false⟩
        (fun c => Except.ok (prepOkFn c)) [] = Except.error (noSuchPath "missing.txt")
    ∧ mainFlow sampleSet ⟨[], none, some "missing.txt", false⟩
        (fun c => Except.ok (prepOkFn c)) [] = Except.error (noSuchPath "missing.txt") := by
  refine ⟨by decide, ?_, ?_, ?_, ?_⟩
  · exact (claim8_notfound sampleSet "missing.txt").1.mpr (by decide)
  · exact (claim8_notfound sampleSet "missing.txt").2.1.mpr (by decide)
  · exact (claim8_notfound sampleSet "missing.txt").2.2.1 false _ [] (by decide)
  · exact (claim8_notfound sampleSet "missing.txt").2.2.2 false _ [] (by decide)

theorem launchesOf_append (a b : List PipeEvent) :
    launchesOf (a ++ b) = launchesOf a ++ launchesOf b := by
  simp [launchesOf, List.filterMap_append]

theorem launchesOf_viewEvents (v : Option PrepItem) : launchesOf (viewEvents v) = [] := by
  rcases v with _ | ⟨p, vr⟩
  · rfl
  · cases vr <;> rfl

theorem okLead_map_ok (ps : List PrepItem) : okLead (ps.map Except.ok) = ps := by
  induction ps with
  | nil => rfl
  | cons pv ps ih => simp [okLead, ih]

theorem okLead_append_error (ps : List PrepItem) (e : String) (rest : List PrepRes) :
    okLead (ps.map Except.ok ++ Except.error e :: rest) = ps := by
  induction ps with
  | nil => rfl
  | cons pv ps ih => simp [okLead, ih]

theorem viewerSeq_nil (v : Option StagedPair) : viewerSeq v [] = true := by
  cases v <;> rfl

theorem viewerSeq_pushed (v : Option StagedPair) (p : StagedPair) (t : List PipeEvent) :
    viewerSeq v (PipeEvent.pushed p :: t) = viewerSeq v t := by
  cases v <;> rfl

theorem viewerSeq_report (v : Option StagedPair) (m : String) (t : List PipeEvent) :
    viewerSeq v (PipeEvent.viewerErrorReported m :: t) = viewerSeq v t := by
  cases v <;> rfl

theorem viewerSeq_exit_self (p : StagedPair) (t : List PipeEvent) :
    viewerSeq (some p) (PipeEvent.viewerExited p :: t) = viewerSeq none t := by
  simp [viewerSeq]

theorem pipeStep_halt_facts {s : PipeState} {c : PipeChoice} {evs : List PipeEvent}
    {r : PipeResult} (h : pipeStep s c = StepOut.halt evs r) :
    evs = []
    ∧ (r = PipeResult.completed → s.pending = [] ∧ s.done = true)
    ∧ (∀ e, r = PipeResult.aborted e → ∃ rest, s.pending = Except.error e :: rest) := by
  unfold pipeStep at h
  by_cases hc : s.pending = [] ∧ s.done = true
  · rw [if_pos hc] at h
    injection h with h₁ h₂
    subst h₁
    subst h₂
    exact ⟨rfl, fun _ => hc, fun e he => by cases he⟩
  · rw [if_neg hc] at h
    cases c with
    | stream =>
      rcases hp : s.pending with _ | ⟨r₀, rest⟩
      · rw [hp] at h
        cases h
      · cases r₀ with
        | error e =>
          rw [hp] at h
          injection h with h₁ h₂
          subst h₁
          subst h₂
          refine ⟨rfl, ?_, ?_⟩
          · intro hcon
            cases hcon
          · intro e' he'
            cases he'
            exact ⟨rest, by simp [hp]⟩
        | ok pv =>
          rw [hp] at h
          cases h
    | view =>
      by_cases hd : s.done
      · rw [if_pos hd] at h
        cases h
      · rw [if_neg hd] at h
        rcases hq : s.diffs with _ | ⟨q, qs⟩ <;> rw [hq] at h <;> cases h

theorem pipeStep_pool {s : PipeState} {c : PipeChoice} {s₂ : PipeState}
    {evs : List PipeEvent} (h : pipeStep s c = StepOut.next s₂ evs) :
    launchesOf evs ++ poolOf s₂ = poolOf s := by
  unfold pipeStep at h
  by_cases hc : s.pending = [] ∧ s.done = true
  · rw [if_pos hc] at h
    cases h
  · rw [if_neg hc] at h
    cases c with
    | stream =>
      rcases hp : s.pending with _ | ⟨r₀, rest⟩
      · rw [hp] at h
        injection h with h₁ h₂
        subst h₁
        subst h₂
        simp [launchesOf]
      · cases r₀ with
        | error e =>
          rw [hp] at h
          cases h
        | ok pv =>
          rw [hp] at h
          injection h with h₁ h₂
          subst h₁
          subst h₂
          simp [launchesOf, poolOf, hp, okLead]
    | view =>
      by_cases hd : s.done
      · rw [if_pos hd] at h
        injection h with h₁ h₂
        subst h₁
        subst h₂
        simp [launchesOf]
      · rw [if_neg hd] at h
        rcases hq : s.diffs with _ | ⟨q, qs⟩ <;> rw [hq] at h <;>
          injection h with h₁ h₂ <;> subst h₁ <;> subst h₂
        · rw [launchesOf_viewEvents]
          simp [poolOf, hq]
        · rw [launchesOf_append, launchesOf_viewEvents]
          simp [poolOf, hq, launchesOf]

theorem pipeStep_wf {s : PipeState} {c : PipeChoice} {s₂ : PipeState}
    {evs : List PipeEvent} (hwf : s.done = true → s.viewing = none ∧ s.diffs = [])
    (h : pipeStep s c = StepOut.next s₂ evs) :
    s₂.done = true → s₂.viewing = none ∧ s₂.diffs = [] := by
  unfold pipeStep at h
  by_cases hc : s.pending = [] ∧ s.done = true
  · rw [if_pos hc] at h
    cases h
  · rw [if_neg hc] at h
    cases c with
    | stream =>
      rcases hp : s.pending with _ | ⟨r₀, rest⟩
      · rw [hp] at h
        injection h with h₁ h₂
        subst h₁
        exact hwf
      · cases r₀ with
        | error e =>
          rw [hp] at h
          cases h
        | ok pv =>
          rw [hp] at h
          injection h with h₁ h₂
          subst h₁
          intro hcon
          simp at hcon
    | view =>
      by_cases hd : s.done
      · rw [if_pos hd] at h
        injection h with h₁ h₂
        subst h₁
        exact hwf
      · rw [if_neg hd] at h
        rcases hq : s.diffs with _ | ⟨q, qs⟩ <;> rw [hq] at h <;>
          injection h with h₁ h₂ <;> subst h₁
        · intro _
          exact ⟨rfl, rfl⟩
        · intro hcon
          exact absurd hcon hd

theorem pipeStep_pending_error {s : PipeState} {c : PipeChoice} {s₂ : PipeState}
    {evs : List PipeEvent} (h : pipeStep s c = StepOut.next s₂ evs) (e : String)
    (hmem : Except.error e ∈ s.pending) : Except.error e ∈ s₂.pending := by
  unfold pipeStep at h
  by_cases hc : s.pending = [] ∧ s.done = true
  · rw [if_pos hc] at h
    cases h
  · rw [if_neg hc] at h
    cases c with
    | stream =>
      rcases hp : s.pending with _ | ⟨r₀, rest⟩
      · rw [hp] at h
        injection h with h₁ h₂
        subst h₁
        exact hmem
      · cases r₀ with
        | error e₂ =>
          rw [hp] at h
          cases h
        | ok pv =>
          rw [hp] at h
          injection h with h₁ h₂
          subst h₁
          rw [hp] at hmem
          rcases List.mem_cons.mp hmem with h' | h'
          · cases h'
          · exact h'
    | view =>
      by_cases hd : s.done
      · rw [if_pos hd] at h
        injection h with h₁ h₂
        subst h₁
        exact hmem
      · rw [if_neg hd] at h
        rcases hq : s.diffs with _ | ⟨q, qs⟩ <;> rw [hq] at h <;>
          injection h with h₁ h₂ <;> subst h₁ <;> exact hmem

theorem pipeStep_viewerSeq {s : PipeState} {c : PipeChoice} {s₂ : PipeState}
    {evs : List PipeEvent} (h : pipeStep s c = StepOut.next s₂ evs) :
    ∀ t, viewerSeq (viewTag s) (evs ++ t) = viewerSeq (viewTag s₂) t := by
  intro t
  unfold pipeStep at h
  by_cases hc : s.pending = [] ∧ s.done = true
  · rw [if_pos hc] at h
    cases h
  · rw [if_neg hc] at h
    cases c with
    | stream =>
      rcases hp : s.pending with _ | ⟨r₀, rest⟩
      · rw [hp] at h
        injection h with h₁ h₂
        subst h₁
        subst h₂
        rfl
      · cases r₀ with
        | error e₂ =>
          rw [hp] at h
          cases h
        | ok pv =>
          rw [hp] at h
          injection h with h₁ h₂
          subst h₁
          subst h₂
          simp only [List.cons_append, List.nil_append, viewerSeq_pushed]
          rfl
    | view =>
      by_cases hd : s.done
      · rw [if_pos hd] at h
        injection h with h₁ h₂
        subst h₁
        subst h₂
        rfl
      · rw [if_neg hd] at h
        rcases hq : s.diffs with _ | ⟨q, qs⟩ <;> rw [hq] at h <;>
          injection h with h₁ h₂ <;> subst h₁ <;> subst h₂
        · rcases hv : s.viewing with _ | ⟨p, vr⟩
          · simp [viewEvents, viewTag, hv]
          · cases vr with
            | ok u =>
              simp [viewEvents, viewTag, hv, viewerSeq_exit_self, viewerSeq_nil]
            | error m =>
              simp [viewEvents, viewTag, hv, viewerSeq_exit_self, viewerSeq_report]
        · rcases hv : s.viewing with _ | ⟨p, vr⟩
          · simp [viewEvents, viewTag, hv, viewerSeq]
          · cases vr with
            | ok u =>
              simp [viewEvents, viewTag, hv, viewerSeq_exit_self, viewerSeq]
            | error m =>
              simp [viewEvents, viewTag, hv, viewerSeq_exit_self, viewerSeq_report,
                viewerSeq]

theorem pipeStep_erase_halt {s : PipeState} {c : PipeChoice} {evs : List PipeEvent}
    {r : PipeResult} (h : pipeStep s c = StepOut.halt evs r) :
    pipeStep (eraseS s) c = StepOut.halt evs r := by
  unfold pipeStep at h ⊢
  by_cases hc : s.pending = [] ∧ s.done = true
  · rw [if_pos hc] at h
    have hc₂ : (eraseS s).pending = [] ∧ (eraseS s).done = true := by
      simp [eraseS, hc.1, hc.2]
    rw [if_pos hc₂]
    exact h
  · rw [if_neg hc] at h
    have hc₂ : ¬((eraseS s).pending = [] ∧ (eraseS s).done = true) := by
      simp only [eraseS, List.map_eq_nil_iff]
      exact hc
    rw [if_neg hc₂]
    cases c with
    | stream =>
      rcases hp : s.pending with _ | ⟨r₀, rest⟩
      · rw [hp] at h
        cases h
      · cases r₀ with
        | error e =>
          rw [hp] at h
          injection h with h₁ h₂
          subst h₁
          subst h₂
          have hp₂ : (eraseS s).pending = Except.error e :: rest.map eraseV := by
            simp [eraseS, hp, eraseV]
          rw [hp₂]
        | ok pv =>
          rw [hp] at h
          cases h
    | view =>
      by_cases hd : s.done
      · rw [if_pos hd] at h
        cases h
      · rw [if_neg hd] at h
        rcases hq : s.diffs with _ | ⟨q, qs⟩ <;> rw [hq] at h <;> cases h

theorem pipeStep_erase_next {s : PipeState} {c : PipeChoice} {s₂ : PipeState}
    {evs : List PipeEvent} (h : pipeStep s c = StepOut.next s₂ evs) :
    ∃ evs₂, pipeStep (eraseS s) c = StepOut.next (eraseS s₂) evs₂
      ∧ launchesOf evs₂ = launchesOf evs := by
  unfold pipeStep at h
  by_cases hc : s.pending = [] ∧ s.done = true
  · rw [if_pos hc] at h
    cases h
  · rw [if_neg hc] at h
    have hc₂ : ¬((eraseS s).pending = [] ∧ (eraseS s).done = true) := by
      simp only [eraseS, List.map_eq_nil_iff]
      exact hc
    cases c with
    | stream =>
      rcases hp : s.pending with _ | ⟨r₀, rest⟩
      · rw [hp] at h
        injection h with h₁ h₂
        subst h₁
        subst h₂
        refine ⟨[], ?_, rfl⟩
        have hp₂ : (eraseS s).pending = [] := by simp [eraseS, hp]
        unfold pipeStep
        rw [if_neg hc₂, hp₂]
      · cases r₀ with
        | error e =>
          rw [hp] at h
          cases h
        | ok pv =>
          rw [hp] at h
          injection h with h₁ h₂
          subst h₁
          subst h₂
          refine ⟨[PipeEvent.pushed pv.1], ?_, rfl⟩
          have hp₂ : (eraseS s).pending = Except.ok (eraseItem pv) :: rest.map eraseV := by
            simp [eraseS, hp, eraseV]
          have hstate : ({ eraseS s with pending := rest.map eraseV, diffs := (eraseS s).diffs ++ [eraseItem pv], done := false } : PipeState) = eraseS { s with pending := rest, diffs := s.diffs ++ [pv], done := false } := by
            simp [eraseS]
          have hstep : pipeStep (eraseS s) PipeChoice.stream = StepOut.next ({ eraseS s with pending := rest.map eraseV, diffs := (eraseS s).diffs ++ [eraseItem pv], done := false } : PipeState) [PipeEvent.pushed (eraseItem pv).1] := by
            unfold pipeStep
            rw [if_neg hc₂, hp₂]
          rw [hstep, hstate]
          exact rfl
    | view =>
      by_cases hd : s.done
      · rw [if_pos hd] at h
        injection h with h₁ h₂
        subst h₁
        subst h₂
        refine ⟨[], ?_, rfl⟩
        have hd₂ : (eraseS s).done = true := hd
        unfold pipeStep
        rw [if_neg hc₂, if_pos hd₂]
      · rw [if_neg hd] at h
        have hd₂ : ¬(eraseS s).done = true := hd
        rcases hq : s.diffs with _ | ⟨q, qs⟩ <;> rw [hq] at h <;>
          injection h with h₁ h₂ <;> subst h₁ <;> subst h₂
        · refine ⟨viewEvents ((eraseS s).viewing), ?_, ?_⟩
          · have hq₂ : (eraseS s).diffs = [] := by simp [eraseS, hq]
            have hstate : ({ eraseS s with diffs := [], viewing := none, done := true } : PipeState) = eraseS { pending := s.pending, diffs := [], done := true, viewing := none } := by
              simp [eraseS]
            have hstep : pipeStep (eraseS s) PipeChoice.view = StepOut.next ({ eraseS s with diffs := [], viewing := none, done := true } : PipeState) (viewEvents ((eraseS s).viewing)) := by
              unfold pipeStep
              rw [if_neg hc₂, if_neg hd₂, hq₂]
            rw [hstep, hstate]
          · rw [launchesOf_viewEvents, launchesOf_viewEvents]
        · refine ⟨viewEvents ((eraseS s).viewing) ++ [PipeEvent.launched q.1], ?_, ?_⟩
          · have hq₂ : (eraseS s).diffs = eraseItem q :: qs.map eraseItem := by
              simp [eraseS, hq]
            have hstate : ({ eraseS s with viewing := some (eraseItem q), diffs := qs.map eraseItem } : PipeState) = eraseS { s with viewing := some q, diffs := qs } := by
              simp [eraseS]
            have hstep : pipeStep (eraseS s) PipeChoice.view = StepOut.next ({ eraseS s with viewing := some (eraseItem q), diffs := qs.map eraseItem } : PipeState) (viewEvents ((eraseS s).viewing) ++ [PipeEvent.launched (eraseItem q).1]) := by
              unfold pipeStep
              rw [if_neg hc₂, if_neg hd₂, hq₂]
            rw [hstep, hstate]
            exact rfl
          · rw [launchesOf_append, launchesOf_viewEvents, launchesOf_append,
              launchesOf_viewEvents]

theorem runPipe_listLead : ∀ (sched : List PipeChoice) (s : PipeState),
    ListLead (launchesOf (runPipe s sched).1) (poolOf s) := by
  intro sched
  induction sched with
  | nil =>
    intro s
    have h1 : (runPipe s []).1 = [] := by
      unfold runPipe
      by_cases hc : s.pending = [] ∧ s.done = true
      · rw [if_pos hc]
      · rw [if_neg hc]
    rw [h1]
    exact listLead_nil _
  | cons c cs ih =>
    intro s
    rcases hstep : pipeStep s c with ⟨s₂, evs⟩ | ⟨evs, r⟩
    · have hrun : runPipe s (c :: cs) = (evs ++ (runPipe s₂ cs).1, (runPipe s₂ cs).2) := by
        simp only [runPipe, hstep]
      rw [hrun]
      obtain ⟨u, hu⟩ := ih s₂
      refine ⟨u, ?_⟩
      rw [launchesOf_append, List.append_assoc, hu, pipeStep_pool hstep]
    · have hrun : runPipe s (c :: cs) = (evs, r) := by
        simp only [runPipe, hstep]
      rw [hrun]
      rw [(pipeStep_halt_facts hstep).1]
      exact listLead_nil _

theorem runPipe_completed : ∀ (sched : List PipeChoice) (s : PipeState),
    (s.done = true → s.viewing = none ∧ s.diffs = []) →
    (runPipe s sched).2 = PipeResult.completed →
    launchesOf (runPipe s sched).1 = poolOf s := by
  intro sched
  induction sched with
  | nil =>
    intro s hwf hres
    unfold runPipe at hres ⊢
    by_cases hc : s.pending = [] ∧ s.done = true
    · rw [if_pos hc]
      obtain ⟨hv, hdq⟩ := hwf hc.2
      simp [launchesOf, poolOf, hc.1, hdq, okLead]
    · rw [if_neg hc] at hres
      cases hres
  | cons c cs ih =>
    intro s hwf hres
    rcases hstep : pipeStep s c with ⟨s₂, evs⟩ | ⟨evs, r⟩
    · have hrun : runPipe s (c :: cs) = (evs ++ (runPipe s₂ cs).1, (runPipe s₂ cs).2) := by
        simp only [runPipe, hstep]
      rw [hrun] at hres ⊢
      have ih₂ := ih s₂ (pipeStep_wf hwf hstep) hres
      rw [launchesOf_append, ih₂, pipeStep_pool hstep]
    · have hrun : runPipe s (c :: cs) = (evs, r) := by
        simp only [runPipe, hstep]
      rw [hrun] at hres ⊢
      obtain ⟨hevs, hcomp, _⟩ := pipeStep_halt_facts hstep
      obtain ⟨hpend, hdone⟩ := hcomp hres
      obtain ⟨hv, hdq⟩ := hwf hdone
      rw [hevs]
      simp [launchesOf, poolOf, hpend, hdq, okLead]

theorem runPipe_not_completed_of_error : ∀ (sched : List PipeChoice) (s : PipeState),
    (∃ e, Except.error e ∈ s.pending) → (runPipe s sched).2 ≠ PipeResult.completed := by
  intro sched
  induction sched with
  | nil =>
    intro s hex
    obtain ⟨e, he⟩ := hex
    unfold runPipe
    have hne : ¬(s.pending = [] ∧ s.done = true) := by
      rintro ⟨h1, _⟩
      rw [h1] at he
      cases he
    rw [if_neg hne]
    intro hcon
    cases hcon
  | cons c cs ih =>
    intro s hex
    obtain ⟨e, he⟩ := hex
    rcases hstep : pipeStep s c with ⟨s₂, evs⟩ | ⟨evs, r⟩
    · have hrun : runPipe s (c :: cs) = (evs ++ (runPipe s₂ cs).1, (runPipe s₂ cs).2) := by
        simp only [runPipe, hstep]
      rw [hrun]
      exact ih s₂ ⟨e, pipeStep_pending_error hstep e he⟩
    · have hrun : runPipe s (c :: cs) = (evs, r) := by
        simp only [runPipe, hstep]
      rw [hrun]
      intro hres
      obtain ⟨_, hcomp, _⟩ := pipeStep_halt_facts hstep
      obtain ⟨hpend, _⟩ := hcomp hres
      rw [hpend] at he
      cases he

theorem runPipe_viewerSeq : ∀ (sched : List PipeChoice) (s : PipeState),
    viewerSeq (viewTag s) (runPipe s sched).1 = true := by
  intro sched
  induction sched with
  | nil =>
    intro s
    have h1 : (runPipe s []).1 = [] := by
      unfold runPipe
      by_cases hc : s.pending = [] ∧ s.done = true
      · rw [if_pos hc]
      · rw [if_neg hc]
    rw [h1]
    exact viewerSeq_nil _
  | cons c cs ih =>
    intro s
    rcases hstep : pipeStep s c with ⟨s₂, evs⟩ | ⟨evs, r⟩
    · have hrun : runPipe s (c :: cs) = (evs ++ (runPipe s₂ cs).1, (runPipe s₂ cs).2) := by
        simp only [runPipe, hstep]
      rw [hrun]
      rw [pipeStep_viewerSeq hstep]
      exact ih s₂
    · have hrun : runPipe s (c :: cs) = (evs, r) := by
        simp only [runPipe, hstep]
      rw [hrun]
      rw [(pipeStep_halt_facts hstep).1]
      exact viewerSeq_nil _

theorem runPipe_erase : ∀ (sched : List PipeChoice) (s : PipeState),
    (runPipe (eraseS s) sched).2 = (runPipe s sched).2
    ∧ launchesOf (runPipe (eraseS s) sched).1 = launchesOf (runPipe s sched).1 := by
  intro sched
  induction sched with
  | nil =>
    intro s
    unfold runPipe
    by_cases hc : s.pending = [] ∧ s.done = true
    · have hc₂ : (eraseS s).pending = [] ∧ (eraseS s).done = true := by
        simp [eraseS, hc.1, hc.2]
      rw [if_pos hc, if_pos hc₂]
      exact ⟨rfl, rfl⟩
    · have hc₂ : ¬((eraseS s).pending = [] ∧ (eraseS s).done = true) := by
        simp only [eraseS, List.map_eq_nil_iff]
        exact hc
      rw [if_neg hc, if_neg hc₂]
      exact ⟨rfl, rfl⟩
  | cons c cs ih =>
    intro s
    rcases hstep : pipeStep s c with ⟨s₂, evs⟩ | ⟨evs, r⟩
    · obtain ⟨evs₂, hstep₂, hl⟩ := pipeStep_erase_next hstep
      have hrun : runPipe s (c :: cs) = (evs ++ (runPipe s₂ cs).1, (runPipe s₂ cs).2) := by
        simp only [runPipe, hstep]
      have hrun₂ : runPipe (eraseS s) (c :: cs) =
          (evs₂ ++ (runPipe (eraseS s₂) cs).1, (runPipe (eraseS s₂) cs).2) := by
        simp only [runPipe, hstep₂]
      rw [hrun, hrun₂]
      obtain ⟨ih1, ih2⟩ := ih s₂
      exact ⟨ih1, by simp only [launchesOf_append, hl, ih2]⟩
    · have hstep₂ := pipeStep_erase_halt hstep
      have hrun : runPipe s (c :: cs) = (evs, r) := by
        simp only [runPipe, hstep]
      have hrun₂ : runPipe (eraseS s) (c :: cs) = (evs, r) := by
        simp only [runPipe, hstep₂]
      rw [hrun, hrun₂]
      exact ⟨rfl, rfl⟩

theorem runPipe_cons_next {s : PipeState} {c : PipeChoice} {s₂ : PipeState}
    {evs : List PipeEvent} (h : pipeStep s c = StepOut.next s₂ evs)
    (cs : List PipeChoice) :
    runPipe s (c :: cs) = (evs ++ (runPipe s₂ cs).1, (runPipe s₂ cs).2) := by
  simp only [runPipe, h]

theorem runPipe_cons_halt {s : PipeState} {c : PipeChoice} {evs : List PipeEvent}
    {r : PipeResult} (h : pipeStep s c = StepOut.halt evs r) (cs : List PipeChoice) :
    runPipe s (c :: cs) = (evs, r) := by
  simp only [runPipe, h]

theorem runPipe_stream_abort : ∀ (ps : List PrepItem) (e : String) (rest : List PrepRes)
    (d : List PrepItem) (b : Bool) (v : Option PrepItem),
    runPipe ⟨ps.map Except.ok ++ Except.error e :: rest, d, b, v⟩
      (List.replicate (ps.length + 1) PipeChoice.stream)
      = (ps.map (fun pv => PipeEvent.pushed pv.1), PipeResult.aborted e) := by
  intro ps
  induction ps with
  | nil =>
    intro e rest d b v
    have hstep : pipeStep ⟨Except.error e :: rest, d, b, v⟩ PipeChoice.stream
        = StepOut.halt [] (PipeResult.aborted e) := by
      unfold pipeStep
      rw [if_neg (by simp)]
    simp only [List.map_nil, List.nil_append, List.length_nil, Nat.zero_add, List.replicate_one]
    rw [runPipe_cons_halt hstep]
  | cons pv ps ih =>
    intro e rest d b v
    have hstep : pipeStep ⟨Except.ok pv :: (ps.map Except.ok ++ Except.error e :: rest),
        d, b, v⟩ PipeChoice.stream
        = StepOut.next ⟨ps.map Except.ok ++ Except.error e :: rest, d ++ [pv], false, v⟩
            [PipeEvent.pushed pv.1] := by
      unfold pipeStep
      rw [if_neg (by simp)]
    have hpend : ((pv :: ps).map Except.ok ++ Except.error e :: rest)
        = Except.ok pv :: (ps.map Except.ok ++ Except.error e :: rest) := by
      simp
    rw [show ((pv :: ps).length + 1) = (ps.length + 1) + 1 by simp, List.replicate_succ]
    rw [show (⟨(pv :: ps).map Except.ok ++ Except.error e :: rest, d, b, v⟩ : PipeState)
        = ⟨Except.ok pv :: (ps.map Except.ok ++ Except.error e :: rest), d, b, v⟩ by rw [hpend]]
    rw [runPipe_cons_next hstep]
    rw [ih e rest (d ++ [pv]) false v]
    simp

/-- Counterexample to C1 as stated: two changes, preparation of change 0
fails.  After the stream yields the failure the whole run aborts with that
error (the `?` in `diffs.push_back(new_diff?)` propagates it out of `diff`),
and change 1 is never delivered to the viewer, even though the schedule would
have allowed further work. -/
theorem claim1_counterexample :
    (runPipe (initPipe [Except.error "network failure", Except.ok (pairB, Except.ok ())])
        [PipeChoice.stream, PipeChoice.view, PipeChoice.stream, PipeChoice.view]).2
      = PipeResult.aborted "network failure"
    ∧ launchesOf (runPipe (initPipe [Except.error "network failure",
          Except.ok (pairB, Except.ok ())])
        [PipeChoice.stream, PipeChoice.view, PipeChoice.stream, PipeChoice.view]).1
      = [] := by
  constructor
  · rfl
  · rfl

/-- Claim C1 (amended: preparation failures abort the run instead of being
isolated): whenever some preparation result is an error, the run can never
finish normally under any schedule; the changes delivered to the viewer are
always a leading part, in order, of the successfully prepared changes before
the first failure; and consuming the stream up to the failure ends the run
with exactly that error, the failed change and everything after it never
being delivered. -/
theorem claim1_pipeline_abort (ps : List PrepItem) (e : String) (rest : List PrepRes)
    (sched : List PipeChoice) :
    (runPipe (initPipe (ps.map Except.ok ++ Except.error e :: rest)) sched).2
        ≠ PipeResult.completed
    ∧ ListLead
        (launchesOf (runPipe (initPipe (ps.map Except.ok ++ Except.error e :: rest)) sched).1)
        (ps.map (fun pv => pv.1))
    ∧ runPipe (initPipe (ps.map Except.ok ++ Except.error e :: rest))
        (List.replicate (ps.length + 1) PipeChoice.stream)
      = (ps.map (fun pv => PipeEvent.pushed pv.1), PipeResult.aborted e) := by
  refine ⟨?_, ?_, ?_⟩
  · exact runPipe_not_completed_of_error sched _ ⟨e, by simp [initPipe]⟩
  · have h := runPipe_listLead sched (initPipe (ps.map Except.ok ++ Except.error e :: rest))
    have hpool : poolOf (initPipe (ps.map Except.ok ++ Except.error e :: rest))
        = ps.map (fun pv => pv.1) := by
      simp [poolOf, initPipe, okLead_append_error]
    rwa [hpool] at h
  · exact runPipe_stream_abort ps e rest [] true none

/-- Claim C2: for every change set prepared in submission order by
`FuturesOrdered` (completion order is absorbed into the arbitrary schedule),
whatever the schedule, the viewer receives staged pairs strictly in original
change-set order (always a leading part of it, and all of it when the loop
terminates normally), and viewer activations strictly alternate with viewer
exits: at most one difftool instance at a time, the next one only after the
previous one exited. -/
theorem claim2_pipeline_order (changes : List Change) (prep : Change → PrepItem)
    (sched : List PipeChoice) :
    ListLead
      (launchesOf (runPipe (initPipe ((changes.map prep).map Except.ok)) sched).1)
      ((changes.map prep).map (fun pv => pv.1))
    ∧ ((runPipe (initPipe ((changes.map prep).map Except.ok)) sched).2
          = PipeResult.completed →
        launchesOf (runPipe (initPipe ((changes.map prep).map Except.ok)) sched).1
          = (changes.map prep).map (fun pv => pv.1))
    ∧ viewerSeq none
        (runPipe (initPipe ((changes.map prep).map Except.ok)) sched).1 = true := by
  have hpool : poolOf (initPipe ((changes.map prep).map Except.ok))
      = (changes.map prep).map (fun pv => pv.1) := by
    simp only [poolOf, initPipe, okLead_map_ok, List.map_nil, List.nil_append]
  refine ⟨?_, ?_, ?_⟩
  · have h := runPipe_listLead sched (initPipe ((changes.map prep).map Except.ok))
    rwa [hpool] at h
  · intro hres
    have h := runPipe_completed sched (initPipe ((changes.map prep).map Except.ok))
      (fun _ => ⟨rfl, rfl⟩) hres
    rwa [hpool] at h
  · have h := runPipe_viewerSeq sched (initPipe ((changes.map prep).map Except.ok))
    simpa [viewTag, initPipe] using h

/-- Witness for C2: a two-change set, prepared in order and fully viewed by a
concrete schedule, terminates normally having launched exactly the two staged
pairs in change-set order. -/
theorem claim2_witness :
    (runPipe (initPipe (([chA, chB].map prepOkFn).map Except.ok))
        [PipeChoice.stream, PipeChoice.stream, PipeChoice.view, PipeChoice.view,
          PipeChoice.view]).2 = PipeResult.completed
    ∧ launchesOf (runPipe (initPipe (([chA, chB].map prepOkFn).map Except.ok))
        [PipeChoice.stream, PipeChoice.stream, PipeChoice.view, PipeChoice.view,
          PipeChoice.view]).1 = ([chA, chB].map prepOkFn).map (fun pv => pv.1)
    ∧ viewerSeq none (runPipe (initPipe (([chA, chB].map prepOkFn).map Except.ok))
        [PipeChoice.stream, PipeChoice.stream, PipeChoice.view, PipeChoice.view,
          PipeChoice.view]).1 = true :=
  ⟨by decide,
    (claim2_pipeline_order [chA, chB] prepOkFn
      [PipeChoice.stream, PipeChoice.stream, PipeChoice.view, PipeChoice.view,
        PipeChoice.view]).2.1 (by decide),
    (claim2_pipeline_order [chA, chB] prepOkFn
      [PipeChoice.stream, PipeChoice.stream, PipeChoice.view, PipeChoice.view,
        PipeChoice.view]).2.2⟩

/-- Claim C9: launching the viewer never turns the tool exit code into an
error (success whatever the code), errors arise exactly from spawn or wait
failures; and the loop does not depend on viewer outcomes: erasing every
viewer failure changes neither the final result of the run nor the pairs
delivered, and a failing viewer launch is reported by the next turn of the
loop. -/
theorem claim9_viewer_exit :
    (∀ code : Int, launchViewer (Except.ok ()) (Except.ok code) = Except.ok ())
    ∧ (∀ (sp : Except String Unit) (w : Except String Int) (e : String),
        launchViewer sp w = Except.error e ↔
          sp = Except.error e ∨ (sp = Except.ok () ∧ w = Except.error e))
    ∧ (∀ (st : PipeState) (sched : List PipeChoice),
        (runPipe (eraseS st) sched).2 = (runPipe st sched).2
        ∧ launchesOf (runPipe (eraseS st) sched).1 = launchesOf (runPipe st sched).1)
    ∧ (∀ (p : StagedPair) (m : String) (st : PipeState) (cs : List PipeChoice),
        st.viewing = some (p, Except.error m) → st.done = false →
        PipeEvent.viewerErrorReported m ∈ (runPipe st (PipeChoice.view :: cs)).1) := by
  refine ⟨?_, ?_, ?_, ?_⟩
  · intro code
    rfl
  · intro sp w e
    rcases sp with e₁ | u
    · simp [launchViewer]
    · rcases w with e₂ | code <;> simp [launchViewer]
  · intro st sched
    exact runPipe_erase sched st
  · intro p m st cs hv hd
    have hcond : ¬(st.pending = [] ∧ st.done = true) := by
      simp [hd]
    rcases hq : st.diffs with _ | ⟨q, qs⟩ <;>
      simp [runPipe, pipeStep, hcond, hd, hq, viewEvents, hv]

/-- Witness for C9: a non-zero exit code still yields success, and a failing
viewer launch leads to its error being reported on the next loop turn. -/
theorem claim9_witness :
    launchViewer (Except.ok ()) (Except.ok 13) = Except.ok ()
    ∧ PipeEvent.viewerErrorReported "spawn failure" ∈
        (runPipe ⟨[], [], false, some (pairA, Except.error "spawn failure")⟩
          [PipeChoice.view]).1 :=
  ⟨claim9_viewer_exit.1 13,
    claim9_viewer_exit.2.2.2 pairA "spawn failure"
      ⟨[], [], false, some (pairA, Except.error "spawn failure")⟩ [] rfl rfl⟩

/-- Witness for the amended C1 at a concrete two-change set whose second
preparation fails: the stream schedule ends in the abort after delivering the
first push, and no schedule completes the run. -/
theorem claim1_witness :
    runPipe (initPipe (([(pairA, Except.ok ())] : List PrepItem).map Except.ok ++
        Except.error "prep failure" :: []))
      (List.replicate (([(pairA, Except.ok ())] : List PrepItem).length + 1) PipeChoice.stream)
      = (([(pairA, Except.ok ())] : List PrepItem).map (fun pv => PipeEvent.pushed pv.1),
          PipeResult.aborted "prep failure")
    ∧ (runPipe (initPipe (([(pairA, Except.ok ())] : List PrepItem).map Except.ok ++
        Except.error "prep failure" :: [])) [PipeChoice.view]).2
      ≠ PipeResult.completed :=
  ⟨(claim1_pipeline_abort ([(pairA, Except.ok ())] : List PrepItem) "prep failure" [] []).2.2,
    (claim1_pipeline_abort ([(pairA, Except.ok ())] : List PrepItem) "prep failure" []
      [PipeChoice.view]).1⟩
